import Mathlib

/-!
Sales per category: the `$group` / `$sum` / `$multiply` aggregation

The repository's source is one aggregation pipeline run against the `sales`
collection:

    db.sales.aggregate([
      { $group: { _id: "$category",
                  totalSales: { $sum: { $multiply: ["$price", "$quantity"] } } } } ])

The development embeds the pipeline as data (`salesPipeline`) together with an
interpreter of the three operators it uses, following the documented behaviour
of the database engine:

* a field path (`"$category"`) yields the field's value, or nothing when the
  document has no such field;
* `$multiply` multiplies its operands from left to right, yields `null` as soon
  as an operand is `null` or missing, and raises an error on any other
  non-numeric operand;
* `$sum`, as a `$group` accumulator, adds the numeric values of the group and
  ignores every non-numeric one (the sum of nothing is `0`);
* `$group` partitions the input by the value of `_id` (a missing value groups
  as `null`) and emits one document per group, made of `_id` and the computed
  fields.  The
  engine fixes no order of the output; the model lists groups by first
  occurrence and the theorems are stated up to order.

Numbers are exact rationals: floating-point rounding is outside the model.
-/

namespace Mongo

/-! ## The model: values, documents, expressions and the pipeline -/

/-- The values a document field can hold in this model. -/
inductive Value where
  | null
  | num (q : ℚ)
  | str (s : String)
  deriving DecidableEq

/-- A document: field names with their values, looked up by first match. -/
abbrev Document := List (String × Value)

/-- Errors an expression can raise. -/
inductive EvalError where
  | multiplyNonNumeric
  deriving DecidableEq

deriving instance DecidableEq for Except

/-- Aggregation expressions used by the pipeline. -/
inductive Expr where
  | fieldPath (name : String)
  | multiply (args : List Expr)

/-- Group accumulators used by the pipeline. -/
inductive Accumulator where
  | sum (arg : Expr)

/-- The body of a `$group` stage: the `_id` expression and the computed fields. -/
structure GroupSpec where
  id : Expr
  fields : List (String × Accumulator)

/-- Pipeline stages. -/
inductive Stage where
  | group (g : GroupSpec)

/-- A pipeline is a list of stages, run in order. -/
abbrev Pipeline := List Stage

mutual
/-- Evaluate an expression on a document; `none` is the missing value. -/
def Expr.eval : Expr → Document → Except EvalError (Option Value)
  | .fieldPath name, d => .ok (d.lookup name)
  | .multiply args, d => Expr.evalMultiply args d 1
/-- The `$multiply` loop over the operands, with the running product. -/
def Expr.evalMultiply : List Expr → Document → ℚ → Except EvalError (Option Value)
  | [], _, acc => .ok (some (.num acc))
  | e :: es, d, acc =>
    match Expr.eval e d with
    | .error err => .error err
    | .ok (some (.num q)) => Expr.evalMultiply es d (acc * q)
    | .ok (some .null) => .ok (some .null)
    | .ok none => .ok (some .null)
    | .ok (some (.str _)) => .error .multiplyNonNumeric
end

/-- Map a fallible function over a list; the first error aborts. -/
def mapExcept {ε α β : Type} (f : α → Except ε β) : List α → Except ε (List β)
  | [] => .ok []
  | x :: xs =>
    match f x with
    | .error e => .error e
    | .ok y =>
      match mapExcept f xs with
      | .error e => .error e
      | .ok ys => .ok (y :: ys)

/-- The numeric content of a value, if it has one. -/
def Value.toNum? : Option Value → Option ℚ
  | some (.num q) => some q
  | _ => none

/-- The `$sum` of a list of values: numeric values are added, others ignored. -/
def sumNumeric (vs : List (Option Value)) : ℚ :=
  (vs.filterMap Value.toNum?).sum

/-- Run an accumulator over the documents of one group. -/
def Accumulator.run : Accumulator → List Document → Except EvalError Value
  | .sum arg, members =>
    match mapExcept (fun d => arg.eval d) members with
    | .error e => .error e
    | .ok vs => .ok (.num (sumNumeric vs))

/-- The grouping key of a document: the `_id` expression, missing read as `null`. -/
def GroupSpec.key (g : GroupSpec) (d : Document) : Except EvalError Value :=
  match g.id.eval d with
  | .error e => .error e
  | .ok v => .ok (v.getD .null)

/-- The distinct elements of a list, in order of first occurrence. -/
def distinct {α : Type} [DecidableEq α] : List α → List α
  | [] => []
  | x :: xs => x :: (distinct xs).filter (fun y => decide (y ≠ x))

/-- The members of the group with key `k`: the documents whose key is `k`. -/
def membersOf (k : Value) (keyed : List (Value × Document)) : List Document :=
  (keyed.filter (fun p => decide (p.1 = k))).map Prod.snd

/-- The output document of one group. -/
def GroupSpec.emit (g : GroupSpec) (k : Value) (members : List Document) :
    Except EvalError Document :=
  match mapExcept (fun f => match f.2.run members with
      | .error e => .error e
      | .ok v => .ok (f.1, v)) g.fields with
  | .error e => .error e
  | .ok fs => .ok (("_id", k) :: fs)

/-- Run a `$group` stage. -/
def GroupSpec.run (g : GroupSpec) (docs : List Document) : Except EvalError (List Document) :=
  match mapExcept g.key docs with
  | .error e => .error e
  | .ok keys =>
    mapExcept (fun k => g.emit k (membersOf k (keys.zip docs))) (distinct keys)

/-- Run one stage. -/
def Stage.run : Stage → List Document → Except EvalError (List Document)
  | .group g, docs => g.run docs

/-- Run a pipeline: each stage consumes the output of the previous one. -/
def aggregate : Pipeline → List Document → Except EvalError (List Document)
  | [], docs => .ok docs
  | s :: rest, docs =>
    match s.run docs with
    | .error e => .error e
    | .ok out => aggregate rest out

/-- The `$group` stage of the source pipeline. -/
def salesGroup : GroupSpec :=
  { id := .fieldPath "category"
    fields := [("totalSales",
      .sum (.multiply [.fieldPath "price", .fieldPath "quantity"]))] }

/-- The pipeline of the source file: a single `$group` stage. -/
def salesPipeline : Pipeline :=
  [ .group salesGroup ]

/-- The query of the source file, run on the contents of the `sales` collection. -/
def salesAggregate (sales : List Document) : Except EvalError (List Document) :=
  aggregate salesPipeline sales

/-- The seed input of the specification. -/
def seedSales : List Document :=
  [ [("category", .str "A"), ("price", .num 10), ("quantity", .num 2)],
    [("category", .str "B"), ("price", .num 5), ("quantity", .num 3)],
    [("category", .str "A"), ("price", .num 7), ("quantity", .num 1)] ]

/-- The grouping key the query reads off a document: the value of `category`,
`null` when the field is missing. -/
def categoryOf (d : Document) : Value :=
  (d.lookup "category").getD .null

/-- The revenue of a document: `price * quantity` when both fields are numbers,
and `0` otherwise. -/
def amountOf (d : Document) : ℚ :=
  match d.lookup "price", d.lookup "quantity" with
  | some (.num p), some (.num q) => p * q
  | _, _ => 0

/-- The `price` of a document when it is a number (`0` otherwise). -/
def priceOf (d : Document) : ℚ :=
  match d.lookup "price" with
  | some (.num p) => p
  | _ => 0

/-- The `quantity` of a document when it is a number (`0` otherwise). -/
def quantityOf (d : Document) : ℚ :=
  match d.lookup "quantity" with
  | some (.num q) => q
  | _ => 0

/-- The exact sum of `price * quantity` over the documents whose `category` is the
string `c`. -/
def salesOfCategory (c : String) (docs : List Document) : ℚ :=
  ((docs.filter (fun d => decide (d.lookup "category" = some (.str c)))).map
    (fun d => priceOf d * quantityOf d)).sum

/-- A value that is a number, `null` or missing. -/
def numberOrNullish : Option Value → Bool
  | some (.str _) => false
  | _ => true

/-- Documents on which `$multiply` raises no error: `price` and `quantity` are each a
number, `null` or missing. -/
def isTolerated (d : Document) : Bool :=
  numberOrNullish (d.lookup "price") && numberOrNullish (d.lookup "quantity")

/-- A sale record of the specification: `category` is a string, `price` and `quantity`
are numbers. -/
def isSaleRecord (d : Document) : Bool :=
  match d.lookup "category", d.lookup "price", d.lookup "quantity" with
  | some (.str _), some (.num _), some (.num _) => true
  | _, _, _ => false

/-- The output row of a group: its key under `_id`, its total under `totalSales`. -/
def groupRow (k : Value) (total : ℚ) : Document :=
  [("_id", k), ("totalSales", .num total)]

/-- The total revenue of the documents whose grouping key is `k`. -/
def totalOf (k : Value) (docs : List Document) : ℚ :=
  ((docs.filter (fun d => decide (categoryOf d = k))).map amountOf).sum

/-- The value `$multiply` yields on a tolerated document. -/
def productOf (d : Document) : Option Value :=
  match d.lookup "price", d.lookup "quantity" with
  | some (.num p), some (.num q) => some (.num (1 * p * q))
  | _, _ => some .null

/-- The seed input with its documents in another order. -/
def seedSalesShuffled : List Document :=
  [ [("category", .str "A"), ("price", .num 7), ("quantity", .num 1)],
    [("category", .str "A"), ("price", .num 10), ("quantity", .num 2)],
    [("category", .str "B"), ("price", .num 5), ("quantity", .num 3)] ]

/-- A value that is missing or `null`. -/
def isNullish : Option Value → Bool
  | none => true
  | some .null => true
  | _ => false

/-- A record that is invalid in the sense of the specification: its `category`, `price` or
`quantity` is missing or `null`. -/
def hasMissingField (d : Document) : Bool :=
  isNullish (d.lookup "category") || isNullish (d.lookup "price") ||
    isNullish (d.lookup "quantity")

/-- A record whose `price` and `quantity` are both numbers. -/
def hasAmount (d : Document) : Bool :=
  match d.lookup "price", d.lookup "quantity" with
  | some (.num _), some (.num _) => true
  | _, _ => false

/-- An input with one valid record, one record with a `null` price and one record without
a category. -/
def incompleteSales : List Document :=
  [ [("category", .str "A"), ("price", .num 10), ("quantity", .num 2)],
    [("category", .str "B"), ("price", .null), ("quantity", .num 3)],
    [("price", .num 5), ("quantity", .num 3)] ]

/-- The zero-quantity scenario of the specification. -/
def zeroQuantitySales : List Document :=
  [ [("category", .str "C"), ("price", .num 100), ("quantity", .num 0)] ]

/-- The records of category `A` of the seed input. -/
def singleCategorySales : List Document :=
  [ [("category", .str "A"), ("price", .num 10), ("quantity", .num 2)],
    [("category", .str "A"), ("price", .num 7), ("quantity", .num 1)] ]

/-- Two records whose categories differ only in letter case. -/
def letterCaseSales : List Document :=
  [ [("category", .str "Books"), ("price", .num 12), ("quantity", .num 1)],
    [("category", .str "books"), ("price", .num 8), ("quantity", .num 2)] ]

/-- The input record of the specification's data model. -/
structure SaleRecord where
  category : String
  price : ℚ
  quantity : ℚ
  deriving DecidableEq

/-- The output record of the specification's data model. -/
structure CategoryTotal where
  category : String
  totalSales : ℚ
  deriving DecidableEq

/-- Read a document as a sale record: `category` a string, `price` and `quantity` numbers. -/
def SaleRecord.ofDocument? (d : Document) : Option SaleRecord :=
  match d.lookup "category", d.lookup "price", d.lookup "quantity" with
  | some (.str c), some (.num p), some (.num q) => some ⟨c, p, q⟩
  | _, _, _ => none

/-- Read an output row of the query as a (category, total) pair. -/
def CategoryTotal.ofRow? (row : Document) : Option CategoryTotal :=
  match row.lookup "_id", row.lookup "totalSales" with
  | some (.str c), some (.num t) => some ⟨c, t⟩
  | _, _ => none

/-- Step 2 of the specification's algorithm: add `price * quantity` of the record to the
running total keyed by its category, inserting a zero-initialised entry on the first
occurrence of that category. -/
def addSale : List (String × ℚ) → SaleRecord → List (String × ℚ)
  | [], r => [(r.category, 0 + r.price * r.quantity)]
  | (c, t) :: rest, r =>
    if c = r.category then (c, t + r.price * r.quantity) :: rest
    else (c, t) :: addSale rest r

/-- Steps 1 and 2 of the specification's algorithm: start from the empty mapping and add
each record in order. -/
def foldTotals (records : List SaleRecord) : List (String × ℚ) :=
  records.foldl addSale []

/-- The explicit algorithm of the specification: fold the records into the mapping, then
emit one `CategoryTotal` per mapping entry. -/
def specFoldAggregate (records : List SaleRecord) : List CategoryTotal :=
  (foldTotals records).map (fun e => ⟨e.1, e.2⟩)

/-- The sum of `price * quantity` over the records of category `c`. -/
def recordsTotal (c : String) (records : List SaleRecord) : ℚ :=
  ((records.filter (fun r => decide (r.category = c))).map
    (fun r => r.price * r.quantity)).sum

/-- The `totalSales` an output holds for the grouping key `k`, and `0` when no row of the
output has that key. -/
def totalIn (out : List Document) (k : Value) : ℚ :=
  match out.find? (fun row => decide (row.lookup "_id" = some k)) with
  | some row =>
    match row.lookup "totalSales" with
    | some (.num t) => t
    | _ => 0
  | none => 0

/-- A further sale of category `B`. -/
def extraSale : Document :=
  [("category", .str "B"), ("price", .num 4), ("quantity", .num 5)]

/-- A second batch of sales: one more sale of category `A` and one of a new category. -/
def secondBatch : List Document :=
  [ [("category", .str "A"), ("price", .num 3), ("quantity", .num 4)],
    [("category", .str "D"), ("price", .num 2), ("quantity", .num 6)] ]

/-! ## Lemmas and theorems -/

theorem mapExcept_eq_ok_map {ε α β : Type} (f : α → Except ε β) (g : α → β) :
    ∀ l : List α, (∀ x ∈ l, f x = .ok (g x)) → mapExcept f l = .ok (l.map g) := by
  intro l
  induction l with
  | nil => intro _; rfl
  | cons x xs ih =>
    intro h
    have hx : f x = .ok (g x) := h x (List.mem_cons_self x xs)
    have hxs : mapExcept f xs = .ok (xs.map g) :=
      ih (fun y hy => h y (List.mem_cons_of_mem x hy))
    simp [mapExcept, hx, hxs]

theorem mapExcept_length {ε α β : Type} (f : α → Except ε β) :
    ∀ (l : List α) (ys : List β), mapExcept f l = .ok ys → ys.length = l.length := by
  intro l
  induction l with
  | nil =>
    intro ys h
    simp [mapExcept] at h
    subst h
    rfl
  | cons x xs ih =>
    intro ys h
    unfold mapExcept at h
    split at h
    · cases h
    · split at h
      · cases h
      · rename_i zs hz
        cases h
        simp [ih zs hz]

theorem mem_distinct {α : Type} [DecidableEq α] (a : α) :
    ∀ l : List α, a ∈ distinct l ↔ a ∈ l := by
  intro l
  induction l with
  | nil => simp [distinct]
  | cons x xs ih =>
    simp only [distinct, List.mem_cons, List.mem_filter, ih]
    by_cases hax : a = x
    · simp [hax]
    · simp [hax]

theorem nodup_distinct {α : Type} [DecidableEq α] :
    ∀ l : List α, (distinct l).Nodup := by
  intro l
  induction l with
  | nil => simp [distinct]
  | cons x xs ih =>
    simp only [distinct, List.nodup_cons]
    refine ⟨?_, ih.filter _⟩
    simp [List.mem_filter]

theorem distinct_perm {α : Type} [DecidableEq α] {l₁ l₂ : List α} (h : l₁.Perm l₂) :
    (distinct l₁).Perm (distinct l₂) := by
  refine (List.perm_ext_iff_of_nodup (nodup_distinct l₁) (nodup_distinct l₂)).2 ?_
  intro a
  rw [mem_distinct, mem_distinct]
  exact h.mem_iff

theorem membersOf_zip_map (k : Value) (key : Document → Value) :
    ∀ docs : List Document,
      membersOf k ((docs.map key).zip docs) = docs.filter (fun d => decide (key d = k)) := by
  intro docs
  induction docs with
  | nil => rfl
  | cons d ds ih =>
    unfold membersOf at ih ⊢
    by_cases hk : key d = k
    · simp [List.filter_cons, hk, ih]
    · simp [List.filter_cons, hk, ih]

theorem key_salesGroup (d : Document) : salesGroup.key d = .ok (categoryOf d) := by
  simp [salesGroup, GroupSpec.key, Expr.eval, categoryOf]

theorem eval_multiply_of_tolerated (d : Document) (h : isTolerated d = true) :
    Expr.eval (.multiply [.fieldPath "price", .fieldPath "quantity"]) d = .ok (productOf d) := by
  unfold isTolerated at h
  simp only [Bool.and_eq_true] at h
  obtain ⟨hp, hq⟩ := h
  cases hpv : d.lookup "price" with
  | none => simp [Expr.eval, Expr.evalMultiply, productOf, hpv]
  | some p =>
    cases p with
    | null => simp [Expr.eval, Expr.evalMultiply, productOf, hpv]
    | str s => simp [hpv, numberOrNullish] at hp
    | num p =>
      cases hqv : d.lookup "quantity" with
      | none => simp [Expr.eval, Expr.evalMultiply, productOf, hpv, hqv]
      | some q =>
        cases q with
        | null => simp [Expr.eval, Expr.evalMultiply, productOf, hpv, hqv]
        | str s => simp [hqv, numberOrNullish] at hq
        | num q => simp [Expr.eval, Expr.evalMultiply, productOf, hpv, hqv]

theorem toNum_productOf (d : Document) :
    Value.toNum? (productOf d) = some (amountOf d) ∨
      (Value.toNum? (productOf d) = none ∧ amountOf d = 0) := by
  unfold productOf amountOf
  cases d.lookup "price" with
  | none => simp [Value.toNum?]
  | some p =>
    cases p with
    | null => simp [Value.toNum?]
    | str s => simp [Value.toNum?]
    | num p =>
      cases d.lookup "quantity" with
      | none => simp [Value.toNum?]
      | some q => cases q <;> simp [Value.toNum?]

theorem sumNumeric_map_productOf :
    ∀ ds : List Document, sumNumeric (ds.map productOf) = (ds.map amountOf).sum := by
  intro ds
  induction ds with
  | nil => simp [sumNumeric]
  | cons d ds ih =>
    unfold sumNumeric at ih ⊢
    simp only [List.map_cons, List.filterMap_cons, List.sum_cons]
    rw [← ih]
    rcases toNum_productOf d with h | ⟨h, h0⟩
    · simp [h]
    · simp [h, h0]

theorem emit_salesGroup (k : Value) (members : List Document)
    (h : ∀ d ∈ members, isTolerated d = true) :
    salesGroup.emit k members = .ok (groupRow k ((members.map amountOf).sum)) := by
  have hmap : mapExcept
      (fun d => Expr.eval (.multiply [.fieldPath "price", .fieldPath "quantity"]) d) members
      = .ok (members.map productOf) :=
    mapExcept_eq_ok_map _ _ members (fun d hd => eval_multiply_of_tolerated d (h d hd))
  simp [salesGroup, GroupSpec.emit, mapExcept, Accumulator.run, hmap, groupRow,
    sumNumeric_map_productOf]

/-- On tolerated documents the query succeeds, with one row per distinct grouping key, in
order of first occurrence, carrying the total revenue of the documents with that key. -/
theorem salesAggregate_eq (docs : List Document) (h : ∀ d ∈ docs, isTolerated d = true) :
    salesAggregate docs =
      .ok ((distinct (docs.map categoryOf)).map (fun k => groupRow k (totalOf k docs))) := by
  have hkeys : mapExcept salesGroup.key docs = .ok (docs.map categoryOf) :=
    mapExcept_eq_ok_map _ _ docs (fun d _ => key_salesGroup d)
  have hrows : mapExcept
      (fun k => salesGroup.emit k (membersOf k ((docs.map categoryOf).zip docs)))
      (distinct (docs.map categoryOf))
      = .ok ((distinct (docs.map categoryOf)).map (fun k => groupRow k (totalOf k docs))) := by
    apply mapExcept_eq_ok_map
    intro k _
    rw [membersOf_zip_map k categoryOf docs]
    exact emit_salesGroup k _ (fun d hd => h d (List.mem_filter.1 hd).1)
  have hrun : salesGroup.run docs
      = .ok ((distinct (docs.map categoryOf)).map (fun k => groupRow k (totalOf k docs))) := by
    unfold GroupSpec.run
    rw [hkeys]
    exact hrows
  simp [salesAggregate, salesPipeline, aggregate, Stage.run, hrun]

theorem isTolerated_of_isSaleRecord (d : Document) (h : isSaleRecord d = true) :
    isTolerated d = true := by
  unfold isSaleRecord at h
  unfold isTolerated
  split at h
  · rename_i hc hp hq
    simp [hp, hq, numberOrNullish]
  · cases h

theorem category_of_isSaleRecord (d : Document) (h : isSaleRecord d = true) :
    ∃ c : String, d.lookup "category" = some (.str c) := by
  unfold isSaleRecord at h
  split at h
  · rename_i c _ _ hc _ _
    exact ⟨c, hc⟩
  · cases h

theorem amountOf_of_isSaleRecord (d : Document) (h : isSaleRecord d = true) :
    amountOf d = priceOf d * quantityOf d := by
  unfold isSaleRecord at h
  split at h
  · rename_i hc hp hq
    simp [amountOf, priceOf, quantityOf, hp, hq]
  · cases h

theorem categoryOf_eq_str_iff (d : Document) (h : isSaleRecord d = true) (c : String) :
    categoryOf d = .str c ↔ d.lookup "category" = some (.str c) := by
  obtain ⟨c0, hc0⟩ := category_of_isSaleRecord d h
  simp [categoryOf, hc0]

theorem totalOf_str_of_sales (docs : List Document)
    (h : ∀ d ∈ docs, isSaleRecord d = true) (c : String) :
    totalOf (.str c) docs = salesOfCategory c docs := by
  unfold totalOf salesOfCategory
  induction docs with
  | nil => rfl
  | cons d ds ih =>
    have hd : isSaleRecord d = true := h d (List.mem_cons_self d ds)
    have ih2 := ih (fun x hx => h x (List.mem_cons_of_mem d hx))
    by_cases hc : d.lookup "category" = some (.str c)
    · have hk : categoryOf d = .str c := (categoryOf_eq_str_iff d hd c).2 hc
      simp [List.filter_cons, hc, hk, ih2, amountOf_of_isSaleRecord d hd]
    · have hk : ¬ categoryOf d = .str c := fun hk => hc ((categoryOf_eq_str_iff d hd c).1 hk)
      simp [List.filter_cons, hc, hk, ih2]

/-- On sale records the query succeeds with one row per distinct category, carrying the
exact sum of `price * quantity` of that category. -/
theorem salesAggregate_of_sales (docs : List Document)
    (h : ∀ d ∈ docs, isSaleRecord d = true) :
    salesAggregate docs =
      .ok ((distinct (docs.map categoryOf)).map (fun k => groupRow k (totalOf k docs))) :=
  salesAggregate_eq docs (fun d hd => isTolerated_of_isSaleRecord d (h d hd))

theorem lookup_id_groupRow (k : Value) (t : ℚ) : (groupRow k t).lookup "_id" = some k := by
  simp [groupRow, List.lookup]

theorem lookup_totalSales_groupRow (k : Value) (t : ℚ) :
    (groupRow k t).lookup "totalSales" = some (.num t) := by
  simp [groupRow, List.lookup]

theorem lookup_category_groupRow (k : Value) (t : ℚ) :
    (groupRow k t).lookup "category" = none := by
  simp [groupRow, List.lookup]

theorem mem_rows_iff (docs : List Document) (row : Document) :
    row ∈ (distinct (docs.map categoryOf)).map (fun k => groupRow k (totalOf k docs)) ↔
      ∃ d ∈ docs, row = groupRow (categoryOf d) (totalOf (categoryOf d) docs) := by
  simp only [List.mem_map, mem_distinct]
  constructor
  · rintro ⟨k, ⟨d, hd, rfl⟩, rfl⟩
    exact ⟨d, hd, rfl⟩
  · rintro ⟨d, hd, rfl⟩
    exact ⟨categoryOf d, ⟨d, hd, rfl⟩, rfl⟩

theorem ids_of_rows (docs : List Document) :
    ((distinct (docs.map categoryOf)).map (fun k => groupRow k (totalOf k docs))).map
        (fun row => row.lookup "_id")
      = (distinct (docs.map categoryOf)).map some := by
  simp [List.map_map, Function.comp_def, lookup_id_groupRow]

theorem nodup_ids_of_rows (docs : List Document) :
    (((distinct (docs.map categoryOf)).map (fun k => groupRow k (totalOf k docs))).map
        (fun row => row.lookup "_id")).Nodup := by
  rw [ids_of_rows]
  exact (nodup_distinct _).map (Option.some_injective _)

theorem totalOf_perm {xs ys : List Document} (h : ys.Perm xs) (k : Value) :
    totalOf k ys = totalOf k xs := by
  unfold totalOf
  exact ((h.filter _).map _).sum_eq

/-- C1 (sum correctness): on every finite sequence of sale records the query succeeds, and
each entry of the result has a string grouping key `c` under `_id` and, under `totalSales`,
the exact sum of `price * quantity` over all input records whose category equals `c`. -/
theorem sum_correctness (docs : List Document) (h : ∀ d ∈ docs, isSaleRecord d = true) :
    ∃ out, salesAggregate docs = .ok out ∧
      ∀ row ∈ out, ∃ c : String,
        row.lookup "_id" = some (.str c) ∧
        row.lookup "totalSales" = some (.num (salesOfCategory c docs)) := by
  refine ⟨_, salesAggregate_of_sales docs h, ?_⟩
  intro row hrow
  obtain ⟨d, hd, rfl⟩ := (mem_rows_iff docs row).1 hrow
  obtain ⟨c, hc⟩ := category_of_isSaleRecord d (h d hd)
  have hk : categoryOf d = .str c := (categoryOf_eq_str_iff d (h d hd) c).2 hc
  refine ⟨c, ?_, ?_⟩
  · rw [lookup_id_groupRow, hk]
  · rw [lookup_totalSales_groupRow, hk, totalOf_str_of_sales docs h c]

/-- Witness of C1 on the seed input of the specification: its three documents are sale
records, and the query gives `A -> 27` and `B -> 15`. -/
theorem sum_correctness_witness :
    (∀ d ∈ seedSales, isSaleRecord d = true) ∧
    (∃ out, salesAggregate seedSales = .ok out ∧
      ∀ row ∈ out, ∃ c : String,
        row.lookup "_id" = some (.str c) ∧
        row.lookup "totalSales" = some (.num (salesOfCategory c seedSales))) ∧
    salesAggregate seedSales =
      .ok [ [("_id", .str "A"), ("totalSales", .num 27)],
            [("_id", .str "B"), ("totalSales", .num 15)] ] :=
  ⟨by decide, sum_correctness seedSales (by decide), by decide!⟩

/-- C2 (completeness): on every sequence of sale records the query succeeds, no two output
entries share a grouping key, every category occurring in the input has an entry, and every
entry's grouping key is a category occurring in the input. -/
theorem completeness (docs : List Document) (h : ∀ d ∈ docs, isSaleRecord d = true) :
    ∃ out, salesAggregate docs = .ok out ∧
      (out.map (fun row => row.lookup "_id")).Nodup ∧
      (∀ d ∈ docs, ∀ c : String, d.lookup "category" = some (.str c) →
        ∃ row ∈ out, row.lookup "_id" = some (.str c)) ∧
      (∀ row ∈ out, ∃ c : String, row.lookup "_id" = some (.str c) ∧
        ∃ d ∈ docs, d.lookup "category" = some (.str c)) := by
  refine ⟨_, salesAggregate_of_sales docs h, nodup_ids_of_rows docs, ?_, ?_⟩
  · intro d hd c hc
    have hk : categoryOf d = .str c := (categoryOf_eq_str_iff d (h d hd) c).2 hc
    refine ⟨groupRow (categoryOf d) (totalOf (categoryOf d) docs),
      (mem_rows_iff docs _).2 ⟨d, hd, rfl⟩, ?_⟩
    rw [lookup_id_groupRow, hk]
  · intro row hrow
    obtain ⟨d, hd, rfl⟩ := (mem_rows_iff docs row).1 hrow
    obtain ⟨c, hc⟩ := category_of_isSaleRecord d (h d hd)
    have hk : categoryOf d = .str c := (categoryOf_eq_str_iff d (h d hd) c).2 hc
    exact ⟨c, by rw [lookup_id_groupRow, hk], d, hd, hc⟩

/-- Witness of C2 on the seed input. -/
theorem completeness_witness :
    (∀ d ∈ seedSales, isSaleRecord d = true) ∧
    ∃ out, salesAggregate seedSales = .ok out ∧
      (out.map (fun row => row.lookup "_id")).Nodup ∧
      (∀ d ∈ seedSales, ∀ c : String, d.lookup "category" = some (.str c) →
        ∃ row ∈ out, row.lookup "_id" = some (.str c)) ∧
      (∀ row ∈ out, ∃ c : String, row.lookup "_id" = some (.str c) ∧
        ∃ d ∈ seedSales, d.lookup "category" = some (.str c)) :=
  ⟨by decide, completeness seedSales (by decide)⟩

/-- C3 as stated fails on the seed input: the rows the query emits carry the grouping key
under the field `_id`, so they are not pairs of a `category` and a `totalSales` field. -/
theorem output_shape_counterexample :
    salesAggregate seedSales =
      .ok [ [("_id", .str "A"), ("totalSales", .num 27)],
            [("_id", .str "B"), ("totalSales", .num 15)] ] ∧
    ¬ (∀ out, salesAggregate seedSales = .ok out →
        ∀ row ∈ out, ∃ k t : Value, row = [("category", k), ("totalSales", t)]) := by
  have hseed : salesAggregate seedSales =
      .ok [ [("_id", .str "A"), ("totalSales", .num 27)],
            [("_id", .str "B"), ("totalSales", .num 15)] ] := by decide!
  refine ⟨hseed, ?_⟩
  intro hall
  obtain ⟨k, t, hrow⟩ := hall _ hseed [("_id", .str "A"), ("totalSales", .num 27)]
    (List.mem_cons_self _ _)
  simp at hrow

/-- C4 (order independence): for every sequence `xs` of sale records and every permutation
`ys` of it, the query succeeds on both and the two results hold the same rows: they are
permutations of each other, hence equal as sets of (grouping key, total) pairs. -/
theorem order_independence (xs ys : List Document)
    (h : ∀ d ∈ xs, isSaleRecord d = true) (hperm : ys.Perm xs) :
    ∃ outX outY, salesAggregate xs = .ok outX ∧ salesAggregate ys = .ok outY ∧
      outY.Perm outX ∧ ∀ row, row ∈ outY ↔ row ∈ outX := by
  have hys : ∀ d ∈ ys, isSaleRecord d = true := fun d hd => h d (hperm.mem_iff.1 hd)
  have hrows : ((distinct (ys.map categoryOf)).map (fun k => groupRow k (totalOf k ys))).Perm
      ((distinct (xs.map categoryOf)).map (fun k => groupRow k (totalOf k xs))) := by
    have hfun : (fun k => groupRow k (totalOf k ys)) = (fun k => groupRow k (totalOf k xs)) := by
      funext k
      rw [totalOf_perm hperm k]
    rw [hfun]
    exact (distinct_perm (hperm.map categoryOf)).map _
  exact ⟨_, _, salesAggregate_of_sales xs h, salesAggregate_of_sales ys hys, hrows,
    fun row => hrows.mem_iff⟩

/-- Witness of C4: the seed input and a reordering of it. -/
theorem order_independence_witness :
    (∀ d ∈ seedSales, isSaleRecord d = true) ∧ seedSalesShuffled.Perm seedSales ∧
    ∃ outX outY, salesAggregate seedSales = .ok outX ∧
      salesAggregate seedSalesShuffled = .ok outY ∧
      outY.Perm outX ∧ ∀ row, row ∈ outY ↔ row ∈ outX :=
  ⟨by decide, by decide, order_independence seedSales seedSalesShuffled (by decide) (by decide)⟩

theorem totalOf_filter_hasAmount (k : Value) (docs : List Document) :
    totalOf k docs = totalOf k (docs.filter (fun d => hasAmount d)) := by
  unfold totalOf
  induction docs with
  | nil => rfl
  | cons d ds ih =>
    by_cases hk : categoryOf d = k
    · by_cases ha : hasAmount d = true
      · simp [List.filter_cons, hk, ha, ih]
      · have h0 : amountOf d = 0 := by
          unfold hasAmount at ha
          unfold amountOf
          split
          · rename_i hp hq
            simp [hp, hq] at ha
          · rfl
        simp [List.filter_cons, hk, ha, ih, h0]
    · by_cases ha : hasAmount d = true
      · simp [List.filter_cons, hk, ha, ih]
      · simp [List.filter_cons, hk, ha, ih]

/-- C5 as stated fails on `incompleteSales`: the input holds invalid records, yet the query
neither fails nor returns the result of the input with the invalid records removed. The
record with the `null` price creates the entry `B -> 0` and the record without a category
creates an entry under the `null` key. -/
theorem invalid_input_policy_counterexample :
    (∃ d ∈ incompleteSales, hasMissingField d = true) ∧
    salesAggregate incompleteSales =
      .ok [ [("_id", .str "A"), ("totalSales", .num 20)],
            [("_id", .str "B"), ("totalSales", .num 0)],
            [("_id", .null), ("totalSales", .num 15)] ] ∧
    salesAggregate (incompleteSales.filter (fun d => !hasMissingField d)) =
      .ok [ [("_id", .str "A"), ("totalSales", .num 20)] ] ∧
    ¬ ((∃ e, salesAggregate incompleteSales = .error e) ∨
        salesAggregate incompleteSales =
          salesAggregate (incompleteSales.filter (fun d => !hasMissingField d))) := by
  have hfull : salesAggregate incompleteSales =
      .ok [ [("_id", .str "A"), ("totalSales", .num 20)],
            [("_id", .str "B"), ("totalSales", .num 0)],
            [("_id", .null), ("totalSales", .num 15)] ] := by decide!
  have hfiltered : salesAggregate (incompleteSales.filter (fun d => !hasMissingField d)) =
      .ok [ [("_id", .str "A"), ("totalSales", .num 20)] ] := by decide!
  refine ⟨by decide, hfull, hfiltered, ?_⟩
  rintro (⟨e, he⟩ | heq)
  · rw [hfull] at he
    cases he
  · rw [hfull, hfiltered] at heq
    simp at heq

/-- C5, amended (invalid input policy): for every input whose records have `price` and
`quantity` each a number, `null` or missing, the query succeeds and removes no record.
Every record, valid or not, has the row of its grouping key in the output (the key is the
value of `category`, `null` when that field is missing), and there are no other rows; a
record whose `price` or `quantity` is missing or `null` adds `0`, so each total equals the
total of the same key over the records with a numeric `price` and `quantity`. -/
theorem invalid_input_policy (docs : List Document) (h : ∀ d ∈ docs, isTolerated d = true) :
    ∃ out, salesAggregate docs = .ok out ∧
      (∀ d ∈ docs,
        [("_id", categoryOf d), ("totalSales", .num (totalOf (categoryOf d) docs))] ∈ out) ∧
      (∀ row ∈ out, ∃ d ∈ docs,
        row = [("_id", categoryOf d), ("totalSales", .num (totalOf (categoryOf d) docs))]) ∧
      (∀ k, totalOf k docs = totalOf k (docs.filter (fun d => hasAmount d))) := by
  refine ⟨_, salesAggregate_eq docs h, ?_, ?_, ?_⟩
  · intro d hd
    exact (mem_rows_iff docs _).2 ⟨d, hd, rfl⟩
  · intro row hrow
    exact (mem_rows_iff docs row).1 hrow
  · intro k
    exact totalOf_filter_hasAmount k docs

/-- Witness of the amended C5 on `incompleteSales`. -/
theorem invalid_input_policy_witness :
    (∀ d ∈ incompleteSales, isTolerated d = true) ∧
    ∃ out, salesAggregate incompleteSales = .ok out ∧
      (∀ d ∈ incompleteSales,
        [("_id", categoryOf d),
          ("totalSales", .num (totalOf (categoryOf d) incompleteSales))] ∈ out) ∧
      (∀ row ∈ out, ∃ d ∈ incompleteSales,
        row = [("_id", categoryOf d),
          ("totalSales", .num (totalOf (categoryOf d) incompleteSales))]) ∧
      (∀ k, totalOf k incompleteSales =
        totalOf k (incompleteSales.filter (fun d => hasAmount d))) :=
  ⟨by decide, invalid_input_policy incompleteSales (by decide)⟩

theorem salesOfCategory_eq_zero (c : String) (docs : List Document)
    (hz : ∀ d ∈ docs, d.lookup "category" = some (.str c) → priceOf d * quantityOf d = 0) :
    salesOfCategory c docs = 0 := by
  unfold salesOfCategory
  apply List.sum_eq_zero
  intro x hx
  obtain ⟨d, hd, rfl⟩ := List.mem_map.1 hx
  obtain ⟨hmem, hcat⟩ := List.mem_filter.1 hd
  exact hz d hmem (of_decide_eq_true hcat)

/-- C6 (zero-product categories still appear): for every input of sale records in which the
category `c` occurs and all records of category `c` have `price * quantity = 0`, the query
succeeds and its output contains the entry of `c`, with `totalSales` equal to `0`. -/
theorem zero_product_category_appears (docs : List Document) (c : String)
    (h : ∀ d ∈ docs, isSaleRecord d = true)
    (hc : ∃ d ∈ docs, d.lookup "category" = some (.str c))
    (hz : ∀ d ∈ docs, d.lookup "category" = some (.str c) → priceOf d * quantityOf d = 0) :
    ∃ out, salesAggregate docs = .ok out ∧
      [("_id", .str c), ("totalSales", .num 0)] ∈ out := by
  refine ⟨_, salesAggregate_of_sales docs h, ?_⟩
  obtain ⟨d, hd, hcat⟩ := hc
  have hk : categoryOf d = .str c := (categoryOf_eq_str_iff d (h d hd) c).2 hcat
  refine (mem_rows_iff docs _).2 ⟨d, hd, ?_⟩
  rw [hk, totalOf_str_of_sales docs h c, salesOfCategory_eq_zero c docs hz]
  rfl

/-- Witness of C6: the record `C, 100, 0` of the specification yields the entry `C -> 0`. -/
theorem zero_product_category_appears_witness :
    (∀ d ∈ zeroQuantitySales, isSaleRecord d = true) ∧
    (∃ d ∈ zeroQuantitySales, d.lookup "category" = some (.str "C")) ∧
    (∀ d ∈ zeroQuantitySales, d.lookup "category" = some (.str "C") →
      priceOf d * quantityOf d = 0) ∧
    (∃ out, salesAggregate zeroQuantitySales = .ok out ∧
      [("_id", .str "C"), ("totalSales", .num 0)] ∈ out) ∧
    salesAggregate zeroQuantitySales = .ok [ [("_id", .str "C"), ("totalSales", .num 0)] ] :=
  ⟨by decide, by decide, by decide!,
    zero_product_category_appears zeroQuantitySales "C" (by decide) (by decide) (by decide!),
    by decide!⟩

theorem salesAggregate_eq_run (docs : List Document) :
    salesAggregate docs = salesGroup.run docs := by
  unfold salesAggregate salesPipeline
  simp only [aggregate, Stage.run]
  cases salesGroup.run docs <;> rfl

theorem run_salesGroup (docs : List Document) :
    salesGroup.run docs =
      mapExcept (fun k => salesGroup.emit k (membersOf k ((docs.map categoryOf).zip docs)))
        (distinct (docs.map categoryOf)) := by
  have hkeys : mapExcept salesGroup.key docs = .ok (docs.map categoryOf) :=
    mapExcept_eq_ok_map _ _ docs (fun d _ => key_salesGroup d)
  unfold GroupSpec.run
  rw [hkeys]

/-- C7 (empty input): the query yields the empty output on the empty input, and only on
the empty input. -/
theorem empty_input (docs : List Document) : salesAggregate docs = .ok [] ↔ docs = [] := by
  constructor
  · intro hout
    rw [salesAggregate_eq_run, run_salesGroup] at hout
    have hlen := mapExcept_length _ _ _ hout
    cases docs with
    | nil => rfl
    | cons d ds => simp [distinct] at hlen
  · intro hnil
    subst hnil
    rfl

theorem distinct_of_all_eq {α : Type} [DecidableEq α] (a : α) :
    ∀ l : List α, l ≠ [] → (∀ x ∈ l, x = a) → distinct l = [a] := by
  intro l
  induction l with
  | nil => intro hne _; exact absurd rfl hne
  | cons x xs ih =>
    intro _ hall
    have hx : x = a := hall x (List.mem_cons_self x xs)
    subst hx
    cases xs with
    | nil => rfl
    | cons y ys =>
      have hrest := ih (List.cons_ne_nil y ys) (fun z hz => hall z (List.mem_cons_of_mem x hz))
      simp only [distinct] at hrest ⊢
      rw [hrest]
      simp

/-- C8 (single category): for every non-empty input of sale records that all have the
category `c`, the output of the query is exactly one entry, with grouping key `c` and with
`totalSales` the sum of `price * quantity` over all input records. -/
theorem single_category (docs : List Document) (c : String) (hne : docs ≠ [])
    (h : ∀ d ∈ docs, isSaleRecord d = true)
    (hc : ∀ d ∈ docs, d.lookup "category" = some (.str c)) :
    salesAggregate docs =
      .ok [ [("_id", .str c),
             ("totalSales", .num ((docs.map (fun d => priceOf d * quantityOf d)).sum))] ] := by
  have hkeys : distinct (docs.map categoryOf) = [.str c] := by
    apply distinct_of_all_eq
    · simpa using hne
    · intro k hk
      obtain ⟨d, hd, rfl⟩ := List.mem_map.1 hk
      exact (categoryOf_eq_str_iff d (h d hd) c).2 (hc d hd)
  have hall : docs.filter (fun d => decide (d.lookup "category" = some (.str c))) = docs :=
    List.filter_eq_self.2 (fun d hd => decide_eq_true (hc d hd))
  rw [salesAggregate_of_sales docs h, hkeys]
  simp only [List.map_cons, List.map_nil]
  rw [totalOf_str_of_sales docs h c]
  unfold salesOfCategory
  rw [hall]
  rfl

/-- Witness of C8: the two records of category `A` of the seed input collapse to the one
entry `A -> 27`. -/
theorem single_category_witness :
    singleCategorySales ≠ [] ∧
    (∀ d ∈ singleCategorySales, isSaleRecord d = true) ∧
    (∀ d ∈ singleCategorySales, d.lookup "category" = some (.str "A")) ∧
    salesAggregate singleCategorySales =
      .ok [ [("_id", .str "A"),
             ("totalSales",
               .num ((singleCategorySales.map (fun d => priceOf d * quantityOf d)).sum))] ] ∧
    salesAggregate singleCategorySales =
      .ok [ [("_id", .str "A"), ("totalSales", .num 27)] ] :=
  ⟨by decide, by decide, by decide,
    single_category singleCategorySales "A" (by decide) (by decide) (by decide),
    by decide!⟩

theorem row_eq_of_id_eq (docs : List Document) (r₁ r₂ : Document)
    (h₁ : r₁ ∈ (distinct (docs.map categoryOf)).map (fun k => groupRow k (totalOf k docs)))
    (h₂ : r₂ ∈ (distinct (docs.map categoryOf)).map (fun k => groupRow k (totalOf k docs)))
    (hid : r₁.lookup "_id" = r₂.lookup "_id") : r₁ = r₂ := by
  obtain ⟨d₁, _, rfl⟩ := (mem_rows_iff docs r₁).1 h₁
  obtain ⟨d₂, _, rfl⟩ := (mem_rows_iff docs r₂).1 h₂
  rw [lookup_id_groupRow, lookup_id_groupRow] at hid
  rw [Option.some.inj hid]

/-- C9 (grouping by exact equality of the category): on every sequence of sale records the
query succeeds and (1) every record has exactly one output entry whose grouping key is the
record's category; (2) the entries of two records are the same entry if and only if the two
category strings are equal; (3) every entry's total counts exactly the records whose
category equals its key. -/
theorem grouping_by_exact_category (docs : List Document)
    (h : ∀ d ∈ docs, isSaleRecord d = true) :
    ∃ out, salesAggregate docs = .ok out ∧
      (∀ d ∈ docs, ∃! row, row ∈ out ∧ row.lookup "_id" = d.lookup "category") ∧
      (∀ d₁ ∈ docs, ∀ d₂ ∈ docs, ∀ r₁ ∈ out, ∀ r₂ ∈ out,
        r₁.lookup "_id" = d₁.lookup "category" → r₂.lookup "_id" = d₂.lookup "category" →
        (r₁ = r₂ ↔ d₁.lookup "category" = d₂.lookup "category")) ∧
      (∀ row ∈ out, ∃ c : String,
        row = [("_id", .str c), ("totalSales", .num (salesOfCategory c docs))]) := by
  refine ⟨_, salesAggregate_of_sales docs h, ?_, ?_, ?_⟩
  · intro d hd
    obtain ⟨c, hc⟩ := category_of_isSaleRecord d (h d hd)
    have hk : categoryOf d = .str c := (categoryOf_eq_str_iff d (h d hd) c).2 hc
    refine ⟨groupRow (categoryOf d) (totalOf (categoryOf d) docs),
      ⟨(mem_rows_iff docs _).2 ⟨d, hd, rfl⟩, ?_⟩, ?_⟩
    · rw [lookup_id_groupRow, hk, hc]
    · rintro row ⟨hrow, hid⟩
      apply row_eq_of_id_eq docs row _ hrow ((mem_rows_iff docs _).2 ⟨d, hd, rfl⟩)
      rw [hid, lookup_id_groupRow, hk, hc]
  · intro d₁ _ d₂ _ r₁ hr₁ r₂ hr₂ hid₁ hid₂
    constructor
    · intro heq
      rw [← hid₁, ← hid₂, heq]
    · intro hcat
      apply row_eq_of_id_eq docs r₁ r₂ hr₁ hr₂
      rw [hid₁, hid₂, hcat]
  · intro row hrow
    obtain ⟨d, hd, rfl⟩ := (mem_rows_iff docs row).1 hrow
    obtain ⟨c, hc⟩ := category_of_isSaleRecord d (h d hd)
    have hk : categoryOf d = .str c := (categoryOf_eq_str_iff d (h d hd) c).2 hc
    refine ⟨c, ?_⟩
    rw [hk, totalOf_str_of_sales docs h c]
    rfl

/-- Witness of C9: the categories `Books` and `books` give two distinct entries. -/
theorem grouping_by_exact_category_witness :
    (∀ d ∈ letterCaseSales, isSaleRecord d = true) ∧
    (∃ out, salesAggregate letterCaseSales = .ok out ∧
      (∀ d ∈ letterCaseSales, ∃! row, row ∈ out ∧ row.lookup "_id" = d.lookup "category") ∧
      (∀ d₁ ∈ letterCaseSales, ∀ d₂ ∈ letterCaseSales, ∀ r₁ ∈ out, ∀ r₂ ∈ out,
        r₁.lookup "_id" = d₁.lookup "category" → r₂.lookup "_id" = d₂.lookup "category" →
        (r₁ = r₂ ↔ d₁.lookup "category" = d₂.lookup "category")) ∧
      (∀ row ∈ out, ∃ c : String,
        row = [("_id", .str c), ("totalSales", .num (salesOfCategory c letterCaseSales))])) ∧
    salesAggregate letterCaseSales =
      .ok [ [("_id", .str "Books"), ("totalSales", .num 12)],
            [("_id", .str "books"), ("totalSales", .num 16)] ] :=
  ⟨by decide, grouping_by_exact_category letterCaseSales (by decide), by decide!⟩

theorem distinct_append_singleton {α : Type} [DecidableEq α] (a : α) :
    ∀ l : List α, distinct (l ++ [a]) = if a ∈ l then distinct l else distinct l ++ [a] := by
  intro l
  induction l with
  | nil => simp [distinct]
  | cons x xs ih =>
    rw [List.cons_append, distinct, ih]
    by_cases hax : a = x
    · subst hax
      by_cases hxs : a ∈ xs
      · simp [hxs, distinct]
      · simp [hxs, List.filter_append, distinct]
    · by_cases hxs : a ∈ xs
      · simp [hxs, distinct]
      · simp [hxs, hax, List.filter_append, distinct]

theorem addSale_map (f : String → ℚ) (r : SaleRecord) :
    ∀ cs : List String, cs.Nodup →
      addSale (cs.map (fun c => (c, f c))) r =
        if r.category ∈ cs then
          cs.map (fun c => (c, if c = r.category then f c + r.price * r.quantity else f c))
        else cs.map (fun c => (c, f c)) ++ [(r.category, 0 + r.price * r.quantity)] := by
  intro cs
  induction cs with
  | nil => intro _; simp [addSale]
  | cons c cs ih =>
    intro hnd
    obtain ⟨hc, hcs⟩ := List.nodup_cons.1 hnd
    simp only [List.map_cons, addSale]
    by_cases hcr : c = r.category
    · have hmap : cs.map (fun c => (c, if c = r.category then f c + r.price * r.quantity
          else f c)) = cs.map (fun c => (c, f c)) := by
        apply List.map_congr_left
        intro x hx
        have hne : x ≠ r.category := fun hxr => hc (hcr ▸ hxr ▸ hx)
        simp [hne]
      simp [hcr, hmap]
    · have hrc : ¬ r.category = c := fun hh => hcr hh.symm
      rw [ih hcs]
      by_cases hmem : r.category ∈ cs
      · simp [hcr, hrc, hmem]
      · simp [hcr, hrc, hmem]

theorem recordsTotal_append_singleton (c : String) (rs : List SaleRecord) (r : SaleRecord) :
    recordsTotal c (rs ++ [r]) =
      recordsTotal c rs + (if r.category = c then r.price * r.quantity else 0) := by
  unfold recordsTotal
  by_cases hrc : r.category = c
  · simp [List.filter_append, List.filter_cons, hrc]
  · simp [List.filter_append, List.filter_cons, hrc]

theorem recordsTotal_eq_zero (c : String) (rs : List SaleRecord)
    (h : c ∉ rs.map (fun r => r.category)) : recordsTotal c rs = 0 := by
  unfold recordsTotal
  have hnil : rs.filter (fun r => decide (r.category = c)) = [] := by
    apply List.filter_eq_nil_iff.2
    intro r hr hdec
    exact h (List.mem_map.2 ⟨r, hr, of_decide_eq_true hdec⟩)
  rw [hnil]
  rfl

/-- The mapping the fold builds: one entry per distinct category, in order of first
occurrence, with the sum of the products of that category. -/
theorem foldTotals_eq (rs : List SaleRecord) :
    foldTotals rs =
      (distinct (rs.map (fun r => r.category))).map (fun c => (c, recordsTotal c rs)) := by
  induction rs using List.reverseRecOn with
  | nil => rfl
  | append_singleton rs r ih =>
    have hstep : foldTotals (rs ++ [r]) = addSale (foldTotals rs) r := by
      simp [foldTotals, List.foldl_append]
    rw [hstep, ih, addSale_map _ r _ (nodup_distinct _), List.map_append, List.map_cons,
      List.map_nil, distinct_append_singleton]
    by_cases hmem : r.category ∈ rs.map (fun r => r.category)
    · rw [if_pos ((mem_distinct _ _).2 hmem), if_pos hmem]
      apply List.map_congr_left
      intro c _
      rw [recordsTotal_append_singleton]
      by_cases hc : c = r.category
      · simp [hc]
      · have hc2 : ¬ r.category = c := fun hh => hc hh.symm
        simp [hc, hc2]
    · rw [if_neg (fun hh => hmem ((mem_distinct _ _).1 hh)), if_neg hmem, List.map_append,
        List.map_cons, List.map_nil]
      congr 1
      · apply List.map_congr_left
        intro c hc
        rw [recordsTotal_append_singleton]
        have hne : ¬ r.category = c := by
          intro hh
          exact hmem (hh ▸ (mem_distinct c _).1 hc)
        simp [hne]
      · rw [recordsTotal_append_singleton, recordsTotal_eq_zero _ _ hmem]
        simp

theorem distinct_map_of_injective {α β : Type} [DecidableEq α] [DecidableEq β] (f : α → β)
    (hf : Function.Injective f) : ∀ l : List α, distinct (l.map f) = (distinct l).map f := by
  intro l
  induction l with
  | nil => rfl
  | cons x xs ih =>
    simp only [List.map_cons, distinct, ih, List.filter_map]
    congr 2
    apply List.filter_congr
    intro y _
    simp [Function.comp_def, hf.eq_iff]

theorem ofDocument_of_isSaleRecord (d : Document) (h : isSaleRecord d = true) :
    ∃ r : SaleRecord, SaleRecord.ofDocument? d = some r ∧ categoryOf d = .str r.category ∧
      amountOf d = r.price * r.quantity := by
  unfold isSaleRecord at h
  split at h
  · rename_i c p q hc hp hq
    exact ⟨⟨c, p, q⟩, by simp [SaleRecord.ofDocument?, hc, hp, hq],
      by simp [categoryOf, hc], by simp [amountOf, hp, hq]⟩
  · cases h

theorem records_of_sales :
    ∀ docs : List Document, (∀ d ∈ docs, isSaleRecord d = true) →
      docs.map SaleRecord.ofDocument? = (docs.filterMap SaleRecord.ofDocument?).map some ∧
      docs.map categoryOf =
        (docs.filterMap SaleRecord.ofDocument?).map (fun r => Value.str r.category) ∧
      ∀ c : String,
        totalOf (.str c) docs = recordsTotal c (docs.filterMap SaleRecord.ofDocument?) := by
  intro docs
  induction docs with
  | nil => intro _; exact ⟨rfl, rfl, fun _ => rfl⟩
  | cons d ds ih =>
    intro h
    obtain ⟨r, hr, hcat, hamt⟩ := ofDocument_of_isSaleRecord d (h d (List.mem_cons_self d ds))
    obtain ⟨ih1, ih2, ih3⟩ := ih (fun x hx => h x (List.mem_cons_of_mem d hx))
    refine ⟨?_, ?_, ?_⟩
    · simp [List.filterMap_cons, hr, ih1]
    · simp [List.filterMap_cons, hr, hcat, ih2]
    · intro c
      have ih3c := ih3 c
      unfold totalOf recordsTotal at ih3c ⊢
      by_cases hc : r.category = c
      · simp [List.filterMap_cons, List.filter_cons, hr, hcat, hamt, hc, ih3c]
      · simp [List.filterMap_cons, List.filter_cons, hr, hcat, hamt, hc, ih3c]

theorem ofRow_groupRow (c : String) (t : ℚ) :
    CategoryTotal.ofRow? (groupRow (.str c) t) = some ⟨c, t⟩ := by
  simp [CategoryTotal.ofRow?, groupRow, List.lookup]

/-- C10 (fold equivalence): on every sequence of sale records the query succeeds, and its
rows, read as (category, total) pairs, are the entries the specification's explicit fold
(start from the empty mapping, add `price * quantity` of each record in order to the total
of its category, emit one entry per key) emits on the same records: the two lists are
permutations of each other, hence equal as sets of pairs. -/
theorem fold_equivalence (docs : List Document) (h : ∀ d ∈ docs, isSaleRecord d = true) :
    ∃ (out : List Document) (records : List SaleRecord) (totals : List CategoryTotal),
      salesAggregate docs = .ok out ∧
      docs.map SaleRecord.ofDocument? = records.map some ∧
      out.map CategoryTotal.ofRow? = totals.map some ∧
      totals.Perm (specFoldAggregate records) ∧
      ∀ e, e ∈ totals ↔ e ∈ specFoldAggregate records := by
  obtain ⟨hrecords, hkeys, htotals⟩ := records_of_sales docs h
  refine ⟨_, docs.filterMap SaleRecord.ofDocument?,
    specFoldAggregate (docs.filterMap SaleRecord.ofDocument?),
    salesAggregate_of_sales docs h, hrecords, ?_, List.Perm.refl _, fun _ => Iff.rfl⟩
  have hinj : Function.Injective (fun c : String => Value.str c) := by
    intro a b hab
    exact Value.str.inj hab
  have hdist : distinct (docs.map categoryOf) =
      (distinct ((docs.filterMap SaleRecord.ofDocument?).map (fun r => r.category))).map
        (fun c => Value.str c) := by
    rw [hkeys, ← distinct_map_of_injective _ hinj, List.map_map]
    rfl
  rw [hdist]
  unfold specFoldAggregate
  rw [foldTotals_eq]
  simp only [List.map_map]
  apply List.map_congr_left
  intro c _
  simp [Function.comp_def, ofRow_groupRow, htotals c]

/-- Witness of C10 on the seed input: the query and the explicit fold both give `A -> 27`
and `B -> 15`. -/
theorem fold_equivalence_witness :
    (∀ d ∈ seedSales, isSaleRecord d = true) ∧
    (∃ (out : List Document) (records : List SaleRecord) (totals : List CategoryTotal),
      salesAggregate seedSales = .ok out ∧
      seedSales.map SaleRecord.ofDocument? = records.map some ∧
      out.map CategoryTotal.ofRow? = totals.map some ∧
      totals.Perm (specFoldAggregate records) ∧
      ∀ e, e ∈ totals ↔ e ∈ specFoldAggregate records) ∧
    specFoldAggregate [⟨"A", 10, 2⟩, ⟨"B", 5, 3⟩, ⟨"A", 7, 1⟩] = [⟨"A", 27⟩, ⟨"B", 15⟩] :=
  ⟨by decide, fold_equivalence seedSales (by decide), by decide!⟩

theorem totalOf_append (k : Value) (xs ys : List Document) :
    totalOf k (xs ++ ys) = totalOf k xs + totalOf k ys := by
  unfold totalOf
  rw [List.filter_append, List.map_append, List.sum_append]

theorem totalOf_singleton (k : Value) (d : Document) :
    totalOf k [d] = if categoryOf d = k then amountOf d else 0 := by
  unfold totalOf
  by_cases hk : categoryOf d = k
  · simp [List.filter_cons, hk]
  · simp [List.filter_cons, hk]

theorem totalOf_eq_zero (k : Value) (docs : List Document)
    (h : k ∉ docs.map categoryOf) : totalOf k docs = 0 := by
  unfold totalOf
  have hnil : docs.filter (fun d => decide (categoryOf d = k)) = [] := by
    apply List.filter_eq_nil_iff.2
    intro d hd hdec
    exact h (List.mem_map.2 ⟨d, hd, of_decide_eq_true hdec⟩)
  rw [hnil]
  rfl

theorem sum_map_ite_of_nodup {α : Type} [DecidableEq α] (a : α) (x : ℚ) :
    ∀ l : List α, l.Nodup →
      (l.map (fun k => if a = k then x else 0)).sum = if a ∈ l then x else 0 := by
  intro l
  induction l with
  | nil => intro _; simp
  | cons y ys ih =>
    intro hnd
    obtain ⟨hy, hys⟩ := List.nodup_cons.1 hnd
    rw [List.map_cons, List.sum_cons, ih hys]
    by_cases hay : a = y
    · subst hay
      simp [hy]
    · have hya : ¬ y = a := fun hh => hay hh.symm
      by_cases hmem : a ∈ ys
      · simp [hay, hmem]
      · simp [hay, hmem]

/-- The totals of the groups add up to the revenue of all documents. -/
theorem sum_totalOf_distinct (docs : List Document) :
    ((distinct (docs.map categoryOf)).map (fun k => totalOf k docs)).sum
      = (docs.map amountOf).sum := by
  induction docs using List.reverseRecOn with
  | nil => rfl
  | append_singleton ds d ih =>
    have hfun : (fun k => totalOf k (ds ++ [d])) =
        (fun k => totalOf k ds + (if categoryOf d = k then amountOf d else 0)) := by
      funext k
      rw [totalOf_append, totalOf_singleton]
    have hkeys : (ds ++ [d]).map categoryOf = ds.map categoryOf ++ [categoryOf d] := by simp
    have hsum : ((ds ++ [d]).map amountOf).sum = (ds.map amountOf).sum + amountOf d := by simp
    rw [hfun, hkeys, hsum, distinct_append_singleton]
    by_cases hmem : categoryOf d ∈ ds.map categoryOf
    · rw [if_pos hmem, List.sum_map_add, ih,
        sum_map_ite_of_nodup _ _ _ (nodup_distinct _),
        if_pos ((mem_distinct _ _).2 hmem)]
    · rw [if_neg hmem, List.map_append, List.sum_append, List.sum_map_add, ih,
        sum_map_ite_of_nodup _ _ _ (nodup_distinct _),
        if_neg (fun hh => hmem ((mem_distinct _ _).1 hh))]
      simp [totalOf_eq_zero _ _ hmem]

theorem totalSales_of_rows (docs : List Document) :
    ((distinct (docs.map categoryOf)).map (fun k => groupRow k (totalOf k docs))).map
        (fun row => row.lookup "totalSales")
      = ((distinct (docs.map categoryOf)).map (fun k => totalOf k docs)).map
        (fun t => some (Value.num t)) := by
  simp [List.map_map, Function.comp_def, lookup_totalSales_groupRow]

theorem sum_amountOf_of_sales (docs : List Document)
    (h : ∀ d ∈ docs, isSaleRecord d = true) :
    (docs.map amountOf).sum = (docs.map (fun d => priceOf d * quantityOf d)).sum := by
  congr 1
  apply List.map_congr_left
  intro d hd
  exact amountOf_of_isSaleRecord d (h d hd)

/-- C11 (conservation of the grand total): on every sequence of sale records the query
succeeds, every output entry holds a number under `totalSales`, and these numbers add up to
the sum of `price * quantity` over all input records. -/
theorem grand_total_conservation (docs : List Document)
    (h : ∀ d ∈ docs, isSaleRecord d = true) :
    ∃ (out : List Document) (totals : List ℚ), salesAggregate docs = .ok out ∧
      out.map (fun row => row.lookup "totalSales") = totals.map (fun t => some (Value.num t)) ∧
      totals.sum = (docs.map (fun d => priceOf d * quantityOf d)).sum := by
  refine ⟨_, _, salesAggregate_of_sales docs h, totalSales_of_rows docs, ?_⟩
  rw [sum_totalOf_distinct, sum_amountOf_of_sales docs h]

/-- Witness of C11 on the seed input: the totals `27` and `15` add up to `42`, the sum of
the three products. -/
theorem grand_total_conservation_witness :
    (∀ d ∈ seedSales, isSaleRecord d = true) ∧
    (∃ (out : List Document) (totals : List ℚ), salesAggregate seedSales = .ok out ∧
      out.map (fun row => row.lookup "totalSales") = totals.map (fun t => some (Value.num t)) ∧
      totals.sum = (seedSales.map (fun d => priceOf d * quantityOf d)).sum) ∧
    (seedSales.map (fun d => priceOf d * quantityOf d)).sum = 42 :=
  ⟨by decide, grand_total_conservation seedSales (by decide), by decide!⟩

theorem totalIn_map_groupRow (f : Value → ℚ) (k : Value) :
    ∀ l : List Value,
      totalIn (l.map (fun j => groupRow j (f j))) k = if k ∈ l then f k else 0 := by
  intro l
  induction l with
  | nil => simp [totalIn]
  | cons j js ih =>
    by_cases hjk : j = k
    · subst hjk
      simp [totalIn, List.find?_cons, lookup_id_groupRow, lookup_totalSales_groupRow]
    · have hkj : ¬ k = j := fun hh => hjk hh.symm
      have hstep : totalIn ((j :: js).map (fun j => groupRow j (f j))) k
          = totalIn (js.map (fun j => groupRow j (f j))) k := by
        simp [totalIn, List.find?_cons, lookup_id_groupRow, hjk]
      rw [hstep, ih]
      simp [hkj]

theorem totalIn_rows (docs : List Document) (k : Value) :
    totalIn ((distinct (docs.map categoryOf)).map (fun j => groupRow j (totalOf j docs))) k
      = totalOf k docs := by
  rw [totalIn_map_groupRow (fun j => totalOf j docs) k]
  by_cases hmem : k ∈ docs.map categoryOf
  · rw [if_pos ((mem_distinct _ _).2 hmem)]
  · rw [if_neg (fun hh => hmem ((mem_distinct _ _).1 hh)), totalOf_eq_zero k docs hmem]

theorem exists_row_iff (docs : List Document) (k : Value) :
    (∃ row ∈ (distinct (docs.map categoryOf)).map (fun j => groupRow j (totalOf j docs)),
        row.lookup "_id" = some k) ↔ k ∈ docs.map categoryOf := by
  constructor
  · rintro ⟨row, hrow, hid⟩
    obtain ⟨d, hd, rfl⟩ := (mem_rows_iff docs row).1 hrow
    rw [lookup_id_groupRow] at hid
    exact List.mem_map.2 ⟨d, hd, Option.some.inj hid⟩
  · intro hk
    obtain ⟨d, hd, rfl⟩ := List.mem_map.1 hk
    exact ⟨_, (mem_rows_iff docs _).2 ⟨d, hd, rfl⟩, lookup_id_groupRow _ _⟩

/-- C12 (concatenation homomorphism): for all sequences `xs` and `ys` of sale records the
query succeeds on `xs`, on `ys` and on `xs ++ ys`; a grouping key has an entry in the result
of `xs ++ ys` exactly when it has one in the result of `xs` or in the result of `ys`; and
the `totalSales` of every key in the result of `xs ++ ys` is the sum of its `totalSales` in
the two results, counting `0` where the key has no entry. -/
theorem concatenation_homomorphism (xs ys : List Document)
    (hx : ∀ d ∈ xs, isSaleRecord d = true) (hy : ∀ d ∈ ys, isSaleRecord d = true) :
    ∃ (outX outY outXY : List Document),
      salesAggregate xs = .ok outX ∧ salesAggregate ys = .ok outY ∧
      salesAggregate (xs ++ ys) = .ok outXY ∧
      (∀ k : Value, (∃ row ∈ outXY, row.lookup "_id" = some k) ↔
        ((∃ row ∈ outX, row.lookup "_id" = some k) ∨
          (∃ row ∈ outY, row.lookup "_id" = some k))) ∧
      (∀ row ∈ outXY, ∃ c : String,
        row = [("_id", .str c),
          ("totalSales", .num (totalIn outX (.str c) + totalIn outY (.str c)))]) ∧
      (∀ k : Value, totalIn outXY k = totalIn outX k + totalIn outY k) := by
  have hxy : ∀ d ∈ xs ++ ys, isSaleRecord d = true := by
    intro d hd
    rcases List.mem_append.1 hd with hd | hd
    · exact hx d hd
    · exact hy d hd
  refine ⟨_, _, _, salesAggregate_of_sales xs hx, salesAggregate_of_sales ys hy,
    salesAggregate_of_sales (xs ++ ys) hxy, ?_, ?_, ?_⟩
  · intro k
    rw [exists_row_iff, exists_row_iff, exists_row_iff, List.map_append, List.mem_append]
  · intro row hrow
    obtain ⟨d, hd, rfl⟩ := (mem_rows_iff (xs ++ ys) row).1 hrow
    obtain ⟨c, hc⟩ := category_of_isSaleRecord d (hxy d hd)
    have hk : categoryOf d = .str c := (categoryOf_eq_str_iff d (hxy d hd) c).2 hc
    refine ⟨c, ?_⟩
    rw [totalIn_rows, totalIn_rows, hk, totalOf_append]
    rfl
  · intro k
    rw [totalIn_rows, totalIn_rows, totalIn_rows, totalOf_append]

/-- Witness of C12: the seed input followed by `secondBatch`; category `A` gets
`27 + 12 = 39`, `B` keeps `15 + 0`, and the new category `D` gets `0 + 12`. -/
theorem concatenation_homomorphism_witness :
    (∀ d ∈ seedSales, isSaleRecord d = true) ∧
    (∀ d ∈ secondBatch, isSaleRecord d = true) ∧
    (∃ (outX outY outXY : List Document),
      salesAggregate seedSales = .ok outX ∧ salesAggregate secondBatch = .ok outY ∧
      salesAggregate (seedSales ++ secondBatch) = .ok outXY ∧
      (∀ k : Value, (∃ row ∈ outXY, row.lookup "_id" = some k) ↔
        ((∃ row ∈ outX, row.lookup "_id" = some k) ∨
          (∃ row ∈ outY, row.lookup "_id" = some k))) ∧
      (∀ row ∈ outXY, ∃ c : String,
        row = [("_id", .str c),
          ("totalSales", .num (totalIn outX (.str c) + totalIn outY (.str c)))]) ∧
      (∀ k : Value, totalIn outXY k = totalIn outX k + totalIn outY k)) ∧
    salesAggregate secondBatch =
      .ok [ [("_id", .str "A"), ("totalSales", .num 12)],
            [("_id", .str "D"), ("totalSales", .num 12)] ] ∧
    salesAggregate (seedSales ++ secondBatch) =
      .ok [ [("_id", .str "A"), ("totalSales", .num 39)],
            [("_id", .str "B"), ("totalSales", .num 15)],
            [("_id", .str "D"), ("totalSales", .num 12)] ] :=
  ⟨by decide, by decide,
    concatenation_homomorphism seedSales secondBatch (by decide) (by decide),
    by decide!, by decide!⟩

theorem amountOf_nonneg (d : Document)
    (h : isSaleRecord d = true ∧ 0 ≤ priceOf d ∧ 0 ≤ quantityOf d) : 0 ≤ amountOf d := by
  rw [amountOf_of_isSaleRecord d h.1]
  exact mul_nonneg h.2.1 h.2.2

theorem totalOf_nonneg (k : Value) (docs : List Document)
    (h : ∀ d ∈ docs, 0 ≤ amountOf d) : 0 ≤ totalOf k docs := by
  unfold totalOf
  apply List.sum_nonneg
  intro x hx
  obtain ⟨d, hd, rfl⟩ := List.mem_map.1 hx
  exact h d (List.mem_filter.1 hd).1

theorem totalOf_singleton_nonneg (k : Value) (d : Document) (h : 0 ≤ amountOf d) :
    0 ≤ totalOf k [d] := by
  rw [totalOf_singleton]
  split
  · exact h
  · exact le_refl 0

/-- C13 (sign preservation): for every sequence of sale records with `price >= 0` and
`quantity >= 0` the query succeeds and every output entry has `totalSales >= 0`; and after
appending one more such record the query succeeds again, every entry of the first result
has an entry of the same key in the second whose `totalSales` is not smaller, and no key
has a smaller `totalSales` than before (counting `0` where the key has no entry). -/
theorem sign_preservation (docs : List Document) (d : Document)
    (h : ∀ x ∈ docs, isSaleRecord x = true ∧ 0 ≤ priceOf x ∧ 0 ≤ quantityOf x)
    (hd : isSaleRecord d = true ∧ 0 ≤ priceOf d ∧ 0 ≤ quantityOf d) :
    ∃ (out outMore : List Document),
      salesAggregate docs = .ok out ∧ salesAggregate (docs ++ [d]) = .ok outMore ∧
      (∀ row ∈ out, ∃ (c : String) (t : ℚ),
        row = [("_id", .str c), ("totalSales", .num t)] ∧ 0 ≤ t) ∧
      (∀ (c : String) (t : ℚ), [("_id", .str c), ("totalSales", .num t)] ∈ out →
        ∃ t₂ : ℚ, [("_id", .str c), ("totalSales", .num t₂)] ∈ outMore ∧ t ≤ t₂) ∧
      (∀ k : Value, totalIn out k ≤ totalIn outMore k) := by
  have hsale : ∀ x ∈ docs, isSaleRecord x = true := fun x hx => (h x hx).1
  have hmore : ∀ x ∈ docs ++ [d], isSaleRecord x = true := by
    intro x hx
    rcases List.mem_append.1 hx with hx | hx
    · exact hsale x hx
    · rw [List.mem_singleton.1 hx]
      exact hd.1
  have hstep : ∀ k : Value, totalOf k docs ≤ totalOf k (docs ++ [d]) := by
    intro k
    rw [totalOf_append]
    exact le_add_of_nonneg_right (totalOf_singleton_nonneg k d (amountOf_nonneg d hd))
  refine ⟨_, _, salesAggregate_of_sales docs hsale, salesAggregate_of_sales (docs ++ [d]) hmore,
    ?_, ?_, ?_⟩
  · intro row hrow
    obtain ⟨x, hx, rfl⟩ := (mem_rows_iff docs row).1 hrow
    obtain ⟨c, hc⟩ := category_of_isSaleRecord x (hsale x hx)
    have hk : categoryOf x = .str c := (categoryOf_eq_str_iff x (hsale x hx) c).2 hc
    refine ⟨c, totalOf (.str c) docs, ?_, ?_⟩
    · rw [hk]
      rfl
    · exact totalOf_nonneg _ docs (fun y hy => amountOf_nonneg y (h y hy))
  · intro c t hrow
    obtain ⟨x, hx, hrowx⟩ := (mem_rows_iff docs _).1 hrow
    have hkt : Value.str c = categoryOf x ∧ t = totalOf (categoryOf x) docs := by
      simpa [groupRow] using hrowx
    obtain ⟨hk, ht⟩ := hkt
    refine ⟨totalOf (.str c) (docs ++ [d]), ?_, ?_⟩
    · refine (mem_rows_iff (docs ++ [d]) _).2 ⟨x, List.mem_append_left _ hx, ?_⟩
      rw [← hk]
      rfl
    · rw [ht, ← hk]
      exact hstep (.str c)
  · intro k
    rw [totalIn_rows, totalIn_rows]
    exact hstep k

/-- Witness of C13: the seed input and one more sale of category `B`; `B` grows from `15`
to `35` and `A` stays at `27`. -/
theorem sign_preservation_witness :
    (∀ x ∈ seedSales, isSaleRecord x = true ∧ 0 ≤ priceOf x ∧ 0 ≤ quantityOf x) ∧
    (isSaleRecord extraSale = true ∧ 0 ≤ priceOf extraSale ∧ 0 ≤ quantityOf extraSale) ∧
    (∃ (out outMore : List Document),
      salesAggregate seedSales = .ok out ∧
      salesAggregate (seedSales ++ [extraSale]) = .ok outMore ∧
      (∀ row ∈ out, ∃ (c : String) (t : ℚ),
        row = [("_id", .str c), ("totalSales", .num t)] ∧ 0 ≤ t) ∧
      (∀ (c : String) (t : ℚ), [("_id", .str c), ("totalSales", .num t)] ∈ out →
        ∃ t₂ : ℚ, [("_id", .str c), ("totalSales", .num t₂)] ∈ outMore ∧ t ≤ t₂) ∧
      (∀ k : Value, totalIn out k ≤ totalIn outMore k)) ∧
    salesAggregate (seedSales ++ [extraSale]) =
      .ok [ [("_id", .str "A"), ("totalSales", .num 27)],
            [("_id", .str "B"), ("totalSales", .num 35)] ] :=
  ⟨by decide!, by decide!,
    sign_preservation seedSales extraSale (by decide!) (by decide!), by decide!⟩

/-! ## The shape of the output on every input -/

theorem mapExcept_eq_map_of_ok {ε α β : Type} (f : α → Except ε β) (g : α → β) :
    ∀ (l : List α) (ys : List β), (∀ x ∈ l, ∀ y, f x = .ok y → y = g x) →
      mapExcept f l = .ok ys → ys = l.map g := by
  intro l
  induction l with
  | nil =>
    intro ys _ h
    simp [mapExcept] at h
    subst h
    rfl
  | cons x xs ih =>
    intro ys hg h
    unfold mapExcept at h
    split at h
    · cases h
    · rename_i y hy
      split at h
      · cases h
      · rename_i zs hz
        cases h
        rw [List.map_cons, hg x (List.mem_cons_self x xs) y hy,
          ih zs (fun w hw => hg w (List.mem_cons_of_mem x hw)) hz]

theorem eval_multiply_ok (d : Document) (v : Option Value)
    (h : Expr.eval (.multiply [.fieldPath "price", .fieldPath "quantity"]) d = .ok v) :
    Value.toNum? v = some (amountOf d) ∨ (Value.toNum? v = none ∧ amountOf d = 0) := by
  cases hpv : d.lookup "price" with
  | none =>
    simp [Expr.eval, Expr.evalMultiply, hpv] at h
    subst h
    simp [Value.toNum?, amountOf, hpv]
  | some p =>
    cases p with
    | null =>
      simp [Expr.eval, Expr.evalMultiply, hpv] at h
      subst h
      simp [Value.toNum?, amountOf, hpv]
    | str s => simp [Expr.eval, Expr.evalMultiply, hpv] at h
    | num p =>
      cases hqv : d.lookup "quantity" with
      | none =>
        simp [Expr.eval, Expr.evalMultiply, hpv, hqv] at h
        subst h
        simp [Value.toNum?, amountOf, hpv, hqv]
      | some q =>
        cases q with
        | null =>
          simp [Expr.eval, Expr.evalMultiply, hpv, hqv] at h
          subst h
          simp [Value.toNum?, amountOf, hpv, hqv]
        | str s => simp [Expr.eval, Expr.evalMultiply, hpv, hqv] at h
        | num q =>
          simp [Expr.eval, Expr.evalMultiply, hpv, hqv] at h
          subst h
          simp [Value.toNum?, amountOf, hpv, hqv]

theorem sumNumeric_of_mapExcept_eval :
    ∀ (members : List Document) (vs : List (Option Value)),
      mapExcept (fun d => Expr.eval (.multiply [.fieldPath "price", .fieldPath "quantity"]) d)
        members = .ok vs →
      sumNumeric vs = (members.map amountOf).sum := by
  intro members
  induction members with
  | nil =>
    intro vs h
    simp [mapExcept] at h
    subst h
    rfl
  | cons d ds ih =>
    intro vs h
    unfold mapExcept at h
    split at h
    · cases h
    · rename_i v hv
      split at h
      · cases h
      · rename_i ws hws
        cases h
        have ihw := ih ws hws
        unfold sumNumeric at ihw ⊢
        rw [List.map_cons, List.sum_cons, ← ihw, List.filterMap_cons]
        rcases eval_multiply_ok d v hv with hn | ⟨hn, h0⟩
        · simp [hn]
        · simp [hn, h0]

theorem emit_salesGroup_of_ok (k : Value) (members : List Document) (row : Document)
    (h : salesGroup.emit k members = .ok row) :
    row = groupRow k ((members.map amountOf).sum) := by
  cases hvs : mapExcept
      (fun d => Expr.eval (.multiply [.fieldPath "price", .fieldPath "quantity"]) d) members with
  | error e => simp [salesGroup, GroupSpec.emit, mapExcept, Accumulator.run, hvs] at h
  | ok vs =>
    simp [salesGroup, GroupSpec.emit, mapExcept, Accumulator.run, hvs] at h
    rw [← h, sumNumeric_of_mapExcept_eval members vs hvs]
    rfl

/-- Whenever the query succeeds, on any input, its output is one row per distinct grouping
key, carrying the total revenue of the documents with that key. -/
theorem salesAggregate_of_ok (docs out : List Document) (h : salesAggregate docs = .ok out) :
    out = (distinct (docs.map categoryOf)).map (fun k => groupRow k (totalOf k docs)) := by
  rw [salesAggregate_eq_run, run_salesGroup] at h
  refine mapExcept_eq_map_of_ok _ _ _ out ?_ h
  intro k _ row hrow
  rw [membersOf_zip_map k categoryOf docs] at hrow
  exact emit_salesGroup_of_ok k _ row hrow

/-- C3, amended (output shape): for every input, every row the pipeline emits is a pair of
a field named `_id`, holding the grouping key of some input document, and a field named
`totalSales`, holding the total of that key; and the pipeline does emit its rows whenever
`price` and `quantity` are each a number, `null` or missing in every document. -/
theorem output_shape (docs : List Document) :
    (∀ out, salesAggregate docs = .ok out →
      ∀ row ∈ out, ∃ d ∈ docs,
        row = [("_id", categoryOf d),
          ("totalSales", .num (totalOf (categoryOf d) docs))]) ∧
    ((∀ d ∈ docs, isTolerated d = true) → ∃ out, salesAggregate docs = .ok out) := by
  constructor
  · intro out hout row hrow
    rw [salesAggregate_of_ok docs out hout] at hrow
    exact (mem_rows_iff docs row).1 hrow
  · intro h
    exact ⟨_, salesAggregate_eq docs h⟩

/-- Witness of the amended C3 on `incompleteSales`, an input with invalid records: the
query emits three rows, each a pair of `_id` and `totalSales`. -/
theorem output_shape_witness :
    (∀ d ∈ incompleteSales, isTolerated d = true) ∧
    salesAggregate incompleteSales =
      .ok [ [("_id", .str "A"), ("totalSales", .num 20)],
            [("_id", .str "B"), ("totalSales", .num 0)],
            [("_id", .null), ("totalSales", .num 15)] ] ∧
    (∀ row ∈ [ [("_id", Value.str "A"), ("totalSales", Value.num 20)],
               [("_id", .str "B"), ("totalSales", .num 0)],
               [("_id", .null), ("totalSales", .num 15)] ],
      ∃ d ∈ incompleteSales,
        row = [("_id", categoryOf d),
          ("totalSales", .num (totalOf (categoryOf d) incompleteSales))]) ∧
    (∃ out, salesAggregate incompleteSales = .ok out) :=
  ⟨by decide, by decide!, (output_shape incompleteSales).1 _ (by decide!),
    (output_shape incompleteSales).2 (by decide)⟩

end Mongo
